import Mathlib

/-! Shallow embedding of the chunk / normalize / extract / dedupe pipeline
of the repository scripts (`analyze_all_rpg_usecases.py`,
`analyze_rpg_usecases_mistral_final.py`, `analyze_rpg_final_restored.py`),
together with proofs and refutations of the specification claims.
Texts are embedded as lists of characters, Python exceptions as `Except`,
and the external difflib similarity ratio as an abstract parameter. -/

/-- Python slice `xs[i:i+len]` for a nonnegative start index `i`. -/
def pySlice {α : Type} (xs : List α) (i len : Nat) : List α :=
  (xs.drop i).take len

/-- Python `range(0, stop, step)` as called by `chunk_lines`: a zero step
raises `ValueError` (modelled as `Except.error`), a negative step gives an
empty range, and a positive step gives the multiples of `step` below
`stop`. -/
def pyRange0 (stop : Nat) (step : Int) : Except String (List Nat) :=
  if step = 0 then Except.error "range() arg 3 must not be zero"
  else if step < 0 then Except.ok []
  else Except.ok ((List.range ((stop + step.toNat - 1) / step.toNat)).map (fun i => i * step.toNat))

/-- Python `"\n".join(pieces)`. -/
def joinNl (ls : List (List Char)) : List Char :=
  List.intercalate ['\n'] ls

/-- Value of an `Except` under a default for the error case; used only to
state claims about the successful outcome. -/
def okOr {α : Type} (e : Except String α) (d : α) : α :=
  match e with
  | Except.ok a => a
  | Except.error _ => d

/-- Line-window view of the strict chunker `chunk_lines` of
`analyze_all_rpg_usecases.py` (the windows before joining):
the list `lines[i:i+size]` for `i in range(0, len(lines), size - overlap)`
filtered by `i + size <= len(lines)`. -/
def chunk_slices_strict (lines : List (List Char)) (size overlap : Nat) :
    Except String (List (List (List Char))) :=
  Except.map
    (fun idxs =>
      (idxs.filter (fun i => i + size ≤ lines.length)).map (fun i => pySlice lines i size))
    (pyRange0 lines.length ((size : Int) - (overlap : Int)))

/-- Strict chunker `chunk_lines` of `analyze_all_rpg_usecases.py`: every
window is joined with newlines; windows that would run past the end of the
document are dropped. -/
def chunk_lines_strict (lines : List (List Char)) (size overlap : Nat) :
    Except String (List (List Char)) :=
  Except.map (fun cs => cs.map joinNl) (chunk_slices_strict lines size overlap)

/-- Line-window view of the permissive chunker `chunk_lines` of
`analyze_rpg_usecases_mistral_final.py` and
`analyze_rpg_final_restored.py` (no filter on the window end). -/
def chunk_slices_permissive (lines : List (List Char)) (size overlap : Nat) :
    Except String (List (List (List Char))) :=
  Except.map
    (fun idxs => idxs.map (fun i => pySlice lines i size))
    (pyRange0 lines.length ((size : Int) - (overlap : Int)))

/-- Permissive chunker `chunk_lines` of
`analyze_rpg_usecases_mistral_final.py`: every window is joined with
newlines, including windows that run past the end of the document. -/
def chunk_lines_permissive (lines : List (List Char)) (size overlap : Nat) :
    Except String (List (List Char)) :=
  Except.map (fun cs => cs.map joinNl) (chunk_slices_permissive lines size overlap)

/-- Fuel-indexed core of Python `str.replace`: all occurrences are
replaced scanning left to right, and scanning resumes after each inserted
replacement. The fuel dominates the length of the text. -/
def replaceAllFuel (pat repl : List Char) : Nat → List Char → List Char
  | 0, s => s
  | _ + 1, [] => []
  | fuel + 1, c :: rest =>
    if pat ≠ [] ∧ pat.isPrefixOf (c :: rest) then
      repl ++ replaceAllFuel pat repl fuel ((c :: rest).drop pat.length)
    else
      c :: replaceAllFuel pat repl fuel rest

/-- Python `text.replace(pat, repl)` for the nonempty literal patterns used
by the scripts (an empty pattern leaves the text unchanged here). -/
def replaceAll (pat repl s : List Char) : List Char :=
  replaceAllFuel pat repl s.length s

/-- Whether `pat` occurs as a contiguous substring of `s`. -/
def hasSubstr (pat : List Char) : List Char → Bool
  | [] => pat.isEmpty
  | c :: rest => pat.isPrefixOf (c :: rest) || hasSubstr pat rest

/-- Header-synonym rewriting `normalize_headers` of
`analyze_all_rpg_usecases.py` and `analyze_rpg_usecases_mistral_final.py`
(the same map is `normalize` in `analyze_rpg_final_restored.py`): four
successive `text.replace(wrong, right)` calls in dictionary order. -/
def normalize_headers (text : List Char) : List Char :=
  replaceAll "## Tables Used".data "## Entities Used / Tables Used".data
    (replaceAll "## Entities Used".data "## Entities Used / Tables Used".data
      (replaceAll "## Validation Rules".data "## Input Type Validation Checks".data
        (replaceAll "## Input Validation".data "## Input Type Validation Checks".data text)))

/-- Loop of `fuzzy_dedupe`: each candidate is compared with the already
kept results (the `seen` list, which the source grows in lockstep with the
returned `unique` list) and is kept exactly when no similarity to a kept
result exceeds the threshold. -/
def fuzzyDedupeGo {α : Type} (sim : α → α → ℚ) (thr : ℚ) (seen : List α) : List α → List α
  | [] => []
  | r :: rest =>
    if seen.any (fun s => thr < sim r s) then fuzzyDedupeGo sim thr seen rest
    else r :: fuzzyDedupeGo sim thr (seen ++ [r]) rest

/-- `fuzzy_dedupe` of `analyze_rpg_usecases_mistral_final.py`,
`analyze_rpg_final_restored.py` and `claude-version-2.py`. The similarity
function (difflib `SequenceMatcher(None, r, s).ratio()`, a Python
standard-library collaborator external to the repository) is abstracted as
the parameter `sim`, applied as `sim candidate keptResult`; the claims are
proved for every similarity function. -/
def fuzzy_dedupe {α : Type} (sim : α → α → ℚ) (thr : ℚ) (results : List α) : List α :=
  fuzzyDedupeGo sim thr [] results

/-- ASCII whitespace as Python `str.strip` and the whitespace class treat
it. -/
def isPySpace (c : Char) : Bool :=
  c = ' ' || c = '\t' || c = '\n' || c = '\r' || c = '\x0B' || c = '\x0C'

/-- Python `str.strip()`: removes leading and trailing whitespace. -/
def pyStrip (s : List Char) : List Char :=
  ((s.dropWhile isPySpace).reverse.dropWhile isPySpace).reverse

/-- Backtracking of the greedy whitespace star in the title search of
`extract_title_and_id`, applied to the text after a matched hash
character: the largest whitespace prefix length whose remainder still
holds a newline wins, and the capture runs from there up to that
newline. -/
def titleBacktrack (s : List Char) : Nat → List Char
  | 0 => s.takeWhile (fun c => c ≠ '\n')
  | k + 1 =>
    if (s.drop (k + 1)).contains '\n' then (s.drop (k + 1)).takeWhile (fun c => c ≠ '\n')
    else titleBacktrack s k

/-- Captured group of the title pattern at a successful match position,
given the text after the hash character. -/
def titleGroup (s : List Char) : List Char :=
  titleBacktrack s (s.takeWhile isPySpace).length

/-- Leftmost match of the title pattern of `extract_title_and_id` in
`analyze_all_rpg_usecases.py` (a hash, a greedy whitespace run, a lazy
capture of non-newline characters, then a newline); returns the captured
group. A position with a hash matches exactly when a newline follows
somewhere after it. -/
def searchTitle : List Char → Option (List Char)
  | [] => none
  | c :: rest =>
    if c = '#' ∧ rest.contains '\n' then some (titleGroup rest)
    else searchTitle rest

/-- Character class kept by the cleanup substitution in
`extract_title_and_id`: letters, digits, hyphen and space. -/
def isTitleChar (c : Char) : Bool :=
  c.isAlpha || c.isDigit || c = '-' || c = ' '

/-- Cleanup chain applied to the raw title in `extract_title_and_id`:
strip the disallowed characters, truncate to 75 characters, strip
whitespace, then turn spaces into hyphens. -/
def cleanFSTitle (title : List Char) : List Char :=
  (pyStrip ((title.filter isTitleChar).take 75)).map (fun c => if c = ' ' then '-' else c)

/-- Leftmost match of the use-case id pattern of `extract_title_and_id`
(the literal text "Use Case ID", a lazy non-newline gap, then "UC-"
followed by a greedy run of at least one non-newline character); returns
the whole match, whose greedy tail extends to the end of the line. A
position matches exactly when the rest of its line, after the literal,
holds "UC-" with at least one further character before the line end. -/
def searchUseCaseId : List Char → Option (List Char)
  | [] => none
  | c :: rest =>
    if ("Use Case ID".data).isPrefixOf (c :: rest) ∧
        hasSubstr "UC-".data ((((c :: rest).drop 11).takeWhile (fun x => x ≠ '\n')).dropLast) then
      some ("Use Case ID".data ++ ((c :: rest).drop 11).takeWhile (fun x => x ≠ '\n'))
    else searchUseCaseId rest

/-- Worker for Python `str.split()` with no separator: split on whitespace
runs, dropping empty pieces; `acc` holds the current word reversed. -/
def pySplitWsAux : List Char → List Char → List (List Char)
  | [], acc => if acc.isEmpty then [] else [acc.reverse]
  | c :: rest, acc =>
    if isPySpace c then
      if acc.isEmpty then pySplitWsAux rest [] else acc.reverse :: pySplitWsAux rest []
    else pySplitWsAux rest (c :: acc)

/-- Python `str.split()` with no separator. -/
def pySplitWs (s : List Char) : List (List Char) :=
  pySplitWsAux s []

/-- Title variable of `extract_title_and_id` after the cleanup line: the
captured and stripped heading when the title pattern matches, the default
"Untitled" otherwise, passed through the cleanup chain. -/
def extractTitle (text : List Char) : List Char :=
  cleanFSTitle (match searchTitle text with
    | some g => pyStrip g
    | none => "Untitled".data)

/-- Use-case id variable of `extract_title_and_id`: the last whitespace
token of the id match with every occurrence of "UC-" removed, or the
default "XXX" when the id pattern does not match. -/
def extractUcid (text : List Char) : List Char :=
  match searchUseCaseId text with
  | some g0 => replaceAll "UC-".data [] ((pySplitWs g0).getLastD [])
  | none => "XXX".data

/-- `extract_title_and_id` of `analyze_all_rpg_usecases.py`: the result is
UC-AP-(program)-(id)-(title), with the literal "Untitled" when the cleaned
title is empty (Python `title or 'Untitled'`). -/
def extract_title_and_id (text : List Char) (program : List Char) : List Char :=
  "UC-AP-".data ++ program ++ "-".data ++ extractUcid text ++ "-".data ++
    (if (extractTitle text).isEmpty then "Untitled".data else extractTitle text)

/-- Lines of a text, splitting on the newline character (Python
`text.split("\n")`); used to state the header-line claims. -/
def linesOf : List Char → List (List Char)
  | [] => [[]]
  | c :: rest =>
    if c = '\n' then [] :: linesOf rest
    else
      match linesOf rest with
      | [] => [[c]]
      | l :: ls => (c :: l) :: ls

/-! Foundational lemmas about the embedded Python string primitives. -/

theorem replaceAllFuel_congr (pat repl : List Char) :
    ∀ n m s, s.length ≤ n → s.length ≤ m →
      replaceAllFuel pat repl n s = replaceAllFuel pat repl m s := by
  intro n
  induction n with
  | zero =>
    intro m s hn _
    have hs : s = [] := List.length_eq_zero.mp (Nat.le_zero.mp hn)
    subst hs
    cases m with
    | zero => rfl
    | succ m => rfl
  | succ n ih =>
    intro m s hn hm
    match s with
    | [] =>
      cases m with
      | zero => rfl
      | succ m => rfl
    | c :: rest =>
      obtain ⟨m', rfl⟩ : ∃ m', m = m' + 1 := ⟨m - 1, by simp at hm; omega⟩
      simp only [replaceAllFuel]
      by_cases h : pat ≠ [] ∧ pat.isPrefixOf (c :: rest)
      · rw [if_pos h, if_pos h]
        have hpat : 1 ≤ pat.length := List.length_pos.mpr h.1
        have hlen : ((c :: rest).drop pat.length).length ≤ rest.length := by
          rw [List.length_drop]
          simp only [List.length_cons]
          omega
        simp only [List.length_cons] at hn hm
        exact congrArg (repl ++ ·) (ih m' _ (by omega) (by omega))
      · rw [if_neg h, if_neg h]
        simp only [List.length_cons] at hn hm
        exact congrArg (c :: ·) (ih m' rest (by omega) (by omega))

theorem replaceAll_nil (pat repl : List Char) : replaceAll pat repl [] = [] := rfl

theorem replaceAll_cons (pat repl : List Char) (c : Char) (rest : List Char) :
    replaceAll pat repl (c :: rest) =
      if pat ≠ [] ∧ pat.isPrefixOf (c :: rest) then
        repl ++ replaceAll pat repl ((c :: rest).drop pat.length)
      else c :: replaceAll pat repl rest := by
  show replaceAllFuel pat repl (c :: rest).length (c :: rest) = _
  simp only [List.length_cons, replaceAllFuel]
  by_cases h : pat ≠ [] ∧ pat.isPrefixOf (c :: rest)
  · rw [if_pos h, if_pos h]
    have hpat : 1 ≤ pat.length := List.length_pos.mpr h.1
    refine congrArg (repl ++ ·) (replaceAllFuel_congr pat repl _ _ _ ?_ le_rfl)
    rw [List.length_drop]
    simp only [List.length_cons]
    omega
  · rw [if_neg h, if_neg h]
    rfl

theorem replaceAll_of_not_hasSubstr {pat : List Char} (repl : List Char) {s : List Char}
    (h : hasSubstr pat s = false) : replaceAll pat repl s = s := by
  induction s with
  | nil => rfl
  | cons c rest ih =>
    simp only [hasSubstr, Bool.or_eq_false_iff] at h
    rw [replaceAll_cons, if_neg (fun hc => by rw [h.1] at hc; exact Bool.noConfusion hc.2)]
    exact congrArg (c :: ·) (ih h.2)

theorem isPrefixOf_append_left {p a : List Char} (t : List Char)
    (h : p.isPrefixOf a = true) : p.isPrefixOf (a ++ t) = true := by
  rw [List.isPrefixOf_iff_prefix] at h ⊢
  exact h.trans (a.prefix_append t)

theorem isPrefixOf_append_newline {p a b : List Char} (hnp : '\n' ∉ p)
    (h : p.isPrefixOf (a ++ '\n' :: b) = true) :
    p.length ≤ a.length ∧ p.isPrefixOf a = true := by
  rw [List.isPrefixOf_iff_prefix] at h
  have hp : p = (a ++ '\n' :: b).take p.length := List.prefix_iff_eq_take.mp h
  have hlen : p.length ≤ a.length := by
    by_contra hgt
    push_neg at hgt
    apply hnp
    rw [hp, List.take_append_eq_append_take]
    refine List.mem_append.mpr (Or.inr ?_)
    obtain ⟨k, hk⟩ : ∃ k, p.length - a.length = k + 1 := ⟨p.length - a.length - 1, by omega⟩
    rw [hk, List.take_succ_cons]
    exact List.mem_cons_self _ _
  refine ⟨hlen, ?_⟩
  rw [List.isPrefixOf_iff_prefix, List.prefix_iff_eq_take]
  rw [hp, List.take_append_eq_append_take]
  have h0 : p.length - a.length = 0 := by omega
  rw [h0]
  simp

theorem replaceAll_cons_newline {pat : List Char} (repl : List Char) (hp : pat ≠ [])
    (hnp : '\n' ∉ pat) (b : List Char) :
    replaceAll pat repl ('\n' :: b) = '\n' :: replaceAll pat repl b := by
  rw [replaceAll_cons]
  refine if_neg (fun hc => ?_)
  rw [List.isPrefixOf_iff_prefix] at hc
  obtain ⟨t, ht⟩ := hc.2
  match pat, hp with
  | p0 :: ps, _ =>
    rw [List.cons_append] at ht
    have h0 : p0 = '\n' := (List.cons.injEq _ _ _ _ ▸ ht).1
    exact hnp (h0 ▸ List.mem_cons_self p0 ps)

theorem replaceAll_append_newline {pat : List Char} (repl : List Char) (hp : pat ≠ [])
    (hnp : '\n' ∉ pat) :
    ∀ a b : List Char, '\n' ∉ a →
      replaceAll pat repl (a ++ '\n' :: b) =
        replaceAll pat repl a ++ '\n' :: replaceAll pat repl b := by
  have key : ∀ n (a b : List Char), a.length ≤ n → '\n' ∉ a →
      replaceAll pat repl (a ++ '\n' :: b) =
        replaceAll pat repl a ++ '\n' :: replaceAll pat repl b := by
    intro n
    induction n with
    | zero =>
      intro a b ha _
      have h0 : a = [] := List.length_eq_zero.mp (Nat.le_zero.mp ha)
      subst h0
      rw [List.nil_append, replaceAll_cons_newline repl hp hnp, replaceAll_nil, List.nil_append]
    | succ n ih =>
      intro a b ha hna
      match a with
      | [] =>
        rw [List.nil_append, replaceAll_cons_newline repl hp hnp, replaceAll_nil, List.nil_append]
      | c :: a' =>
        have hna' : '\n' ∉ a' := fun hm => hna (List.mem_cons_of_mem c hm)
        rw [List.cons_append, replaceAll_cons]
        by_cases hpre : pat.isPrefixOf (c :: (a' ++ '\n' :: b)) = true
        · rw [if_pos ⟨hp, hpre⟩]
          have hsplit := isPrefixOf_append_newline hnp (p := pat) (a := c :: a') (b := b)
            (by rw [List.cons_append]; exact hpre)
          have hpat : 1 ≤ pat.length := List.length_pos.mpr hp
          have hdrop : (c :: (a' ++ '\n' :: b)).drop pat.length =
              (c :: a').drop pat.length ++ '\n' :: b := by
            rw [← List.cons_append, List.drop_append_eq_append_drop]
            have h0 : pat.length - (c :: a').length = 0 := by
              have := hsplit.1
              omega
            rw [h0, List.drop_zero]
          rw [hdrop]
          have hdlen : ((c :: a').drop pat.length).length ≤ n := by
            rw [List.length_drop]
            simp only [List.length_cons] at ha ⊢
            omega
          have hdnl : '\n' ∉ (c :: a').drop pat.length :=
            fun hm => hna (List.drop_subset _ _ hm)
          rw [ih _ b hdlen hdnl]
          rw [replaceAll_cons pat repl c a', if_pos ⟨hp, hsplit.2⟩]
          rw [List.append_assoc]
        · rw [if_neg (fun hc => hpre hc.2)]
          have ha' : a'.length ≤ n := by
            simp only [List.length_cons] at ha
            omega
          rw [ih a' b ha' hna']
          have hpre' : ¬ (pat ≠ [] ∧ pat.isPrefixOf (c :: a') = true) := by
            rintro ⟨-, hc⟩
            exact hpre (by
              have := isPrefixOf_append_left ('\n' :: b) (p := pat) (a := c :: a') hc
              rw [List.cons_append] at this
              exact this)
          rw [replaceAll_cons pat repl c a', if_neg hpre']
          rw [List.cons_append]
  intro a b hna
  exact key a.length a b le_rfl hna

theorem not_mem_replaceAll {pat repl : List Char} {x : Char} (hxr : x ∉ repl) :
    ∀ s, x ∉ s → x ∉ replaceAll pat repl s := by
  have key : ∀ n s, s.length ≤ n → x ∉ s → x ∉ replaceAll pat repl s := by
    intro n
    induction n with
    | zero =>
      intro s hs _
      have h0 : s = [] := List.length_eq_zero.mp (Nat.le_zero.mp hs)
      subst h0
      simp [replaceAll_nil]
    | succ n ih =>
      intro s hs hxs
      match s with
      | [] => simp [replaceAll_nil]
      | c :: rest =>
        rw [replaceAll_cons]
        by_cases h : pat ≠ [] ∧ pat.isPrefixOf (c :: rest)
        · rw [if_pos h]
          intro hm
          rcases List.mem_append.mp hm with hm | hm
          · exact hxr hm
          · have hpat : 1 ≤ pat.length := List.length_pos.mpr h.1
            have hdlen : ((c :: rest).drop pat.length).length ≤ n := by
              rw [List.length_drop]
              simp only [List.length_cons] at hs ⊢
              omega
            exact ih _ hdlen (fun hmm => hxs (List.drop_subset _ _ hmm)) hm
        · rw [if_neg h]
          intro hm
          rcases List.mem_cons.mp hm with hm | hm
          · exact hxs (hm ▸ List.mem_cons_self c rest)
          · have hrlen : rest.length ≤ n := by
              simp only [List.length_cons] at hs
              omega
            exact ih rest hrlen (fun hmm => hxs (List.mem_cons_of_mem c hmm)) hm
  intro s
  exact key s.length s le_rfl

theorem linesOf_of_not_mem {s : List Char} (h : '\n' ∉ s) : linesOf s = [s] := by
  induction s with
  | nil => rfl
  | cons c rest ih =>
    have hc : ¬ c = '\n' := fun e => h (e ▸ List.mem_cons_self c rest)
    have hr := ih (fun hm => h (List.mem_cons_of_mem c hm))
    simp [linesOf, if_neg hc, hr]

theorem linesOf_append_newline {a : List Char} (b : List Char) (h : '\n' ∉ a) :
    linesOf (a ++ '\n' :: b) = a :: linesOf b := by
  induction a with
  | nil => simp [linesOf]
  | cons c a' ih =>
    have hc : ¬ c = '\n' := fun e => h (e ▸ List.mem_cons_self c a')
    have hr := ih (fun hm => h (List.mem_cons_of_mem c hm))
    simp [linesOf, if_neg hc, hr]

theorem exists_newline_split {s : List Char} (h : '\n' ∈ s) :
    ∃ a b, s = a ++ '\n' :: b ∧ '\n' ∉ a := by
  induction s with
  | nil => cases h
  | cons c rest ih =>
    by_cases hc : c = '\n'
    · exact ⟨[], rest, by rw [hc]; rfl, by simp⟩
    · have hr : '\n' ∈ rest := by
        rcases List.mem_cons.mp h with hm | hm
        · exact absurd hm.symm hc
        · exact hm
      obtain ⟨a, b, rfl, hna⟩ := ih hr
      refine ⟨c :: a, b, rfl, fun hm => ?_⟩
      rcases List.mem_cons.mp hm with hm | hm
      · exact hc hm.symm
      · exact hna hm

theorem linesOf_replaceAll {pat : List Char} (repl : List Char) (hp : pat ≠ [])
    (hnp : '\n' ∉ pat) (hnr : '\n' ∉ repl) :
    ∀ s, linesOf (replaceAll pat repl s) = (linesOf s).map (replaceAll pat repl) := by
  have key : ∀ n s, s.length ≤ n →
      linesOf (replaceAll pat repl s) = (linesOf s).map (replaceAll pat repl) := by
    intro n
    induction n with
    | zero =>
      intro s hs
      have h0 : s = [] := List.length_eq_zero.mp (Nat.le_zero.mp hs)
      subst h0
      rfl
    | succ n ih =>
      intro s hs
      by_cases hmem : '\n' ∈ s
      · obtain ⟨a, b, rfl, hna⟩ := exists_newline_split hmem
        have hblen : b.length ≤ n := by
          rw [List.length_append, List.length_cons] at hs
          omega
        rw [replaceAll_append_newline repl hp hnp a b hna,
          linesOf_append_newline _ (not_mem_replaceAll hnr a hna),
          linesOf_append_newline b hna, List.map_cons, ih b hblen]
      · rw [linesOf_of_not_mem hmem, linesOf_of_not_mem (not_mem_replaceAll hnr s hmem)]
        rfl
  intro s
  exact key s.length s le_rfl

theorem linesOf_normalize_headers (x : List Char) :
    linesOf (normalize_headers x) = (linesOf x).map normalize_headers := by
  unfold normalize_headers
  rw [linesOf_replaceAll _ (by decide) (by decide) (by decide),
    linesOf_replaceAll _ (by decide) (by decide) (by decide),
    linesOf_replaceAll _ (by decide) (by decide) (by decide),
    linesOf_replaceAll _ (by decide) (by decide) (by decide),
    List.map_map, List.map_map, List.map_map]
  rfl

theorem normalize_headers_noop {l : List Char}
    (h1 : hasSubstr "## Input Validation".data l = false)
    (h2 : hasSubstr "## Validation Rules".data l = false)
    (h3 : hasSubstr "## Entities Used".data l = false)
    (h4 : hasSubstr "## Tables Used".data l = false) :
    normalize_headers l = l := by
  unfold normalize_headers
  rw [replaceAll_of_not_hasSubstr _ h1, replaceAll_of_not_hasSubstr _ h2,
    replaceAll_of_not_hasSubstr _ h3, replaceAll_of_not_hasSubstr _ h4]

/-! Lemmas about the chunkers. -/

theorem range_filter_lt (c n : Nat) :
    (List.range n).filter (fun i => decide (i < c)) = List.range (min c n) := by
  induction n with
  | zero => simp
  | succ n ih =>
    rw [List.range_succ, List.filter_append, ih]
    by_cases h : n < c
    · have h1 : min c n = n := by omega
      have h2 : min c (n + 1) = n + 1 := by omega
      rw [h1, h2, List.range_succ]
      congr 1
      rw [List.filter_cons, if_pos (by simpa using h)]
      rfl
    · have h2 : min c (n + 1) = min c n := by omega
      rw [h2]
      have hnil : List.filter (fun i => decide (i < c)) [n] = [] := by
        rw [List.filter_cons, if_neg (by simpa using h)]
        rfl
      rw [hnil, List.append_nil]

theorem strict_index_iff {L W V : Nat} (hVW : V < W) (i : Nat) :
    i * (W - V) + W ≤ L ↔ i < (if L < W then 0 else (L - W) / (W - V) + 1) := by
  have hS : 0 < W - V := by omega
  by_cases hL : L < W
  · rw [if_pos hL]
    constructor
    · intro h
      set m := i * (W - V) with hm
      omega
    · intro h
      omega
  · rw [if_neg hL]
    constructor
    · intro h
      have h1 : i * (W - V) ≤ L - W := by
        set m := i * (W - V) with hm
        omega
      have h2 : i ≤ (L - W) / (W - V) := (Nat.le_div_iff_mul_le hS).mpr h1
      omega
    · intro h
      have h2 : i ≤ (L - W) / (W - V) := by omega
      have h1 : i * (W - V) ≤ L - W := (Nat.le_div_iff_mul_le hS).mp h2
      set m := i * (W - V) with hm
      omega

theorem strict_count_le {L W V : Nat} (hVW : V < W) :
    (if L < W then 0 else (L - W) / (W - V) + 1) ≤ (L + (W - V) - 1) / (W - V) := by
  have hS : 0 < W - V := by omega
  by_cases hL : L < W
  · rw [if_pos hL]
    exact Nat.zero_le _
  · rw [if_neg hL]
    rw [← Nat.add_div_right (L - W) hS]
    exact Nat.div_le_div_right (by omega)

theorem chunk_slices_strict_eq (lines : List (List Char)) (W V : Nat) (hVW : V < W) :
    chunk_slices_strict lines W V =
      Except.ok
        ((List.range (if lines.length < W then 0 else (lines.length - W) / (W - V) + 1)).map
          (fun i => pySlice lines (i * (W - V)) W)) := by
  have h0 : ¬ ((W : Int) - (V : Int) = 0) := by omega
  have h1 : ¬ ((W : Int) - (V : Int) < 0) := by omega
  have h2 : ((W : Int) - (V : Int)).toNat = W - V := by omega
  unfold chunk_slices_strict pyRange0
  rw [if_neg h0, if_neg h1, h2]
  simp only [Except.map]
  congr 1
  rw [List.filter_map]
  have hcongr : List.filter ((fun i => decide (i + W ≤ lines.length)) ∘ (fun i => i * (W - V)))
      (List.range ((lines.length + (W - V) - 1) / (W - V))) =
      List.filter (fun i => decide (i < if lines.length < W then 0
        else (lines.length - W) / (W - V) + 1))
      (List.range ((lines.length + (W - V) - 1) / (W - V))) := by
    refine List.filter_congr (fun i _ => ?_)
    exact decide_eq_decide.mpr (strict_index_iff hVW i)
  rw [hcongr, range_filter_lt, min_eq_left (strict_count_le hVW), List.map_map]
  rfl

theorem chunk_slices_permissive_eq (lines : List (List Char)) (W V : Nat) (hVW : V < W) :
    chunk_slices_permissive lines W V =
      Except.ok
        ((List.range ((lines.length + (W - V) - 1) / (W - V))).map
          (fun i => pySlice lines (i * (W - V)) W)) := by
  have h0 : ¬ ((W : Int) - (V : Int) = 0) := by omega
  have h1 : ¬ ((W : Int) - (V : Int) < 0) := by omega
  have h2 : ((W : Int) - (V : Int)).toNat = W - V := by omega
  unfold chunk_slices_permissive pyRange0
  rw [if_neg h0, if_neg h1, h2]
  simp only [Except.map]
  congr 1
  rw [List.map_map]
  rfl

theorem chunk_lines_strict_eq (lines : List (List Char)) (W V : Nat) (hVW : V < W) :
    chunk_lines_strict lines W V =
      Except.ok
        ((List.range (if lines.length < W then 0 else (lines.length - W) / (W - V) + 1)).map
          (fun i => joinNl (pySlice lines (i * (W - V)) W))) := by
  unfold chunk_lines_strict
  rw [chunk_slices_strict_eq lines W V hVW]
  simp only [Except.map, List.map_map]
  rfl

theorem getD_map_range {β : Type} (f : Nat → β) {n i : Nat} (d : β) (h : i < n) :
    ((List.range n).map f).getD i d = f i := by
  rw [List.getD_eq_getElem?_getD, List.getElem?_map, List.getElem?_range h]
  rfl

/-! Lemmas about the fuzzy deduplicator. -/

theorem fuzzyDedupeGo_sublist {α : Type} (sim : α → α → ℚ) (thr : ℚ) :
    ∀ (xs seen : List α), (fuzzyDedupeGo sim thr seen xs).Sublist xs := by
  intro xs
  induction xs with
  | nil => intro seen; exact List.Sublist.refl []
  | cons r rest ih =>
    intro seen
    simp only [fuzzyDedupeGo]
    by_cases h : (seen.any fun s => decide (thr < sim r s)) = true
    · rw [if_pos h]
      exact (ih seen).cons r
    · rw [if_neg h]
      exact (ih (seen ++ [r])).cons₂ r

theorem fuzzyDedupeGo_le_seen {α : Type} (sim : α → α → ℚ) (thr : ℚ) :
    ∀ (xs seen : List α) (a : α), a ∈ fuzzyDedupeGo sim thr seen xs →
      ∀ s ∈ seen, sim a s ≤ thr := by
  intro xs
  induction xs with
  | nil =>
    intro seen a ha
    cases ha
  | cons r rest ih =>
    intro seen a ha s hs
    simp only [fuzzyDedupeGo] at ha
    by_cases h : (seen.any fun s => decide (thr < sim r s)) = true
    · rw [if_pos h] at ha
      exact ih seen a ha s hs
    · rw [if_neg h] at ha
      rcases List.mem_cons.mp ha with rfl | ha'
      · refine not_lt.mp (fun hlt => h ?_)
        exact List.any_eq_true.mpr ⟨s, hs, by simpa using hlt⟩
      · exact ih (seen ++ [r]) a ha' s (List.mem_append.mpr (Or.inl hs))

theorem fuzzyDedupeGo_pairwise {α : Type} (sim : α → α → ℚ) (thr : ℚ) :
    ∀ (xs seen : List α),
      (fuzzyDedupeGo sim thr seen xs).Pairwise (fun a b => sim b a ≤ thr) := by
  intro xs
  induction xs with
  | nil => intro seen; exact List.Pairwise.nil
  | cons r rest ih =>
    intro seen
    simp only [fuzzyDedupeGo]
    by_cases h : (seen.any fun s => decide (thr < sim r s)) = true
    · rw [if_pos h]
      exact ih seen
    · rw [if_neg h]
      refine List.Pairwise.cons (fun b hb => ?_) (ih (seen ++ [r]))
      exact fuzzyDedupeGo_le_seen sim thr rest (seen ++ [r]) b hb r
        (List.mem_append.mpr (Or.inr (List.mem_singleton.mpr rfl)))

theorem fuzzyDedupeGo_append {α : Type} (sim : α → α → ℚ) (thr : ℚ) :
    ∀ (xs ys seen : List α),
      fuzzyDedupeGo sim thr seen (xs ++ ys) =
        fuzzyDedupeGo sim thr seen xs ++
          fuzzyDedupeGo sim thr (seen ++ fuzzyDedupeGo sim thr seen xs) ys := by
  intro xs
  induction xs with
  | nil =>
    intro ys seen
    simp [fuzzyDedupeGo]
  | cons r rest ih =>
    intro ys seen
    simp only [List.cons_append, fuzzyDedupeGo]
    by_cases h : (seen.any fun s => decide (thr < sim r s)) = true
    · rw [if_pos h, if_pos h]
      exact ih ys seen
    · rw [if_neg h, if_neg h]
      simp only [List.append_eq]
      rw [ih ys (seen ++ [r])]
      have harg : (seen ++ [r]) ++ fuzzyDedupeGo sim thr (seen ++ [r]) rest =
          seen ++ r :: fuzzyDedupeGo sim thr (seen ++ [r]) rest := by
        rw [List.append_assoc]
        rfl
      rw [harg]
      rfl

theorem fuzzyDedupeGo_of_pairwise {α : Type} (sim : α → α → ℚ) (thr : ℚ) :
    ∀ (xs seen : List α), xs.Pairwise (fun a b => sim b a ≤ thr) →
      (∀ a ∈ xs, ∀ s ∈ seen, sim a s ≤ thr) → fuzzyDedupeGo sim thr seen xs = xs := by
  intro xs
  induction xs with
  | nil =>
    intro seen _ _
    rfl
  | cons r rest ih =>
    intro seen hpw hseen
    simp only [fuzzyDedupeGo]
    have hany : (seen.any fun s => decide (thr < sim r s)) = false := by
      by_contra hc
      rw [Bool.not_eq_false] at hc
      obtain ⟨s, hs, hlt⟩ := List.any_eq_true.mp hc
      exact absurd (hseen r (List.mem_cons_self r rest) s hs) (by simpa using hlt)
    rw [if_neg (by simp [hany])]
    congr 1
    refine ih (seen ++ [r]) (List.Pairwise.of_cons hpw) (fun a ha s hs => ?_)
    rcases List.mem_append.mp hs with hs | hs
    · exact hseen a (List.mem_cons_of_mem r ha) s hs
    · rw [List.mem_singleton.mp hs]
      exact (List.pairwise_cons.mp hpw).1 a ha

/-! Lemmas about the title cleanup chain. -/

theorem pyStrip_length_le (s : List Char) : (pyStrip s).length ≤ s.length := by
  unfold pyStrip
  rw [List.length_reverse]
  calc ((s.dropWhile isPySpace).reverse.dropWhile isPySpace).length
      ≤ (s.dropWhile isPySpace).reverse.length :=
        (List.dropWhile_suffix _).sublist.length_le
    _ = (s.dropWhile isPySpace).length := List.length_reverse _
    _ ≤ s.length := (List.dropWhile_suffix _).sublist.length_le

theorem pyStrip_subset (s : List Char) : ∀ c ∈ pyStrip s, c ∈ s := by
  intro c hc
  unfold pyStrip at hc
  rw [List.mem_reverse] at hc
  have h1 := (List.dropWhile_suffix isPySpace).sublist.subset hc
  rw [List.mem_reverse] at h1
  exact (List.dropWhile_suffix isPySpace).sublist.subset h1

theorem cleanFSTitle_length_le (t : List Char) : (cleanFSTitle t).length ≤ 75 := by
  unfold cleanFSTitle
  rw [List.length_map]
  calc (pyStrip ((t.filter isTitleChar).take 75)).length
      ≤ ((t.filter isTitleChar).take 75).length := pyStrip_length_le _
    _ ≤ 75 := List.length_take_le _ _

theorem cleanFSTitle_chars (t : List Char) :
    ∀ c ∈ cleanFSTitle t, (c.isAlpha || c.isDigit || c = '-') = true := by
  intro c hc
  unfold cleanFSTitle at hc
  rw [List.mem_map] at hc
  obtain ⟨d, hd, rfl⟩ := hc
  have hd1 : d ∈ (t.filter isTitleChar).take 75 := pyStrip_subset _ d hd
  have hd2 : d ∈ t.filter isTitleChar := List.take_subset _ _ hd1
  have hd3 : isTitleChar d = true := List.of_mem_filter hd2
  by_cases hsp : d = ' '
  · rw [if_pos hsp]
    decide
  · rw [if_neg hsp]
    unfold isTitleChar at hd3
    simp only [Bool.or_eq_true, decide_eq_true_eq] at hd3 ⊢
    rcases hd3 with ((h | h) | h) | h
    · exact Or.inl (Or.inl h)
    · exact Or.inl (Or.inr h)
    · exact Or.inr h
    · exact absurd h hsp

/-! Claim theorems. -/

/-- C1: for every line sequence of length `L`, window size `W > 0` and
overlap `V` with `0 ≤ V < W` (stride `S = W - V`), the strict-policy
chunker produces exactly the joined line windows `[i*S, i*S + W)` for
`i = 0 .. (L - W) / S`, hence exactly `(L - W) / S + 1` chunks when
`L ≥ W` and exactly `0` chunks when `L < W` (so the 300-line document with
`W = 90`, `V = 30` yields the 4 windows starting at 0, 60, 120, 180 and
the window starting at 240 is dropped). -/
theorem strict_chunker_windows (lines : List (List Char)) (W V : Nat) (hVW : V < W) :
    chunk_lines_strict lines W V =
      Except.ok
        ((List.range (if lines.length < W then 0 else (lines.length - W) / (W - V) + 1)).map
          (fun i => joinNl (pySlice lines (i * (W - V)) W))) ∧
    Except.map List.length (chunk_lines_strict lines W V) =
      Except.ok (if lines.length < W then 0 else (lines.length - W) / (W - V) + 1) := by
  refine ⟨chunk_lines_strict_eq lines W V hVW, ?_⟩
  rw [chunk_lines_strict_eq lines W V hVW]
  simp [Except.map]

/-- Witness for C1 at a concrete three-line document with `W = 2`,
`V = 1`: the two full windows survive and nothing else. -/
theorem strict_chunker_windows_witness :
    chunk_lines_strict [['a'], ['b'], ['c']] 2 1 =
      Except.ok [['a', '\n', 'b'], ['b', '\n', 'c']] := by
  have h := strict_chunker_windows [['a'], ['b'], ['c']] 2 1 (by decide)
  exact h.1.trans (by rfl)

/-- C2 counterexample: the claim says the response normalizer is
idempotent, but normalizing the normal form of "## Entities Used" appends
a second " / Tables Used". -/
theorem normalize_headers_not_idempotent :
    normalize_headers (normalize_headers "## Entities Used".data) ≠
      normalize_headers "## Entities Used".data := by
  decide

/-- C2 amended: the response normalizer is idempotent on every text whose
normalized form holds none of the four synonym header strings; it is not
idempotent in general, because the canonical header
"## Entities Used / Tables Used" itself holds the synonym
"## Entities Used" and grows another " / Tables Used" on renormalization. -/
theorem normalize_headers_idempotent_of_clean (x : List Char)
    (h1 : hasSubstr "## Input Validation".data (normalize_headers x) = false)
    (h2 : hasSubstr "## Validation Rules".data (normalize_headers x) = false)
    (h3 : hasSubstr "## Entities Used".data (normalize_headers x) = false)
    (h4 : hasSubstr "## Tables Used".data (normalize_headers x) = false) :
    normalize_headers (normalize_headers x) = normalize_headers x :=
  normalize_headers_noop h1 h2 h3 h4

/-- Witness for the amended C2 at the concrete text "hello". -/
theorem normalize_headers_idempotent_of_clean_witness :
    normalize_headers (normalize_headers "hello".data) = normalize_headers "hello".data :=
  normalize_headers_idempotent_of_clean "hello".data (by decide) (by decide) (by decide)
    (by decide)

/-- C3: for every ordered input list, the fuzzy deduplicator returns an
order-preserving sublist whose members pairwise stay at or below the
threshold (so of two results whose mutual ratio exceeds the threshold only
the first encountered survives), and a new candidate is kept exactly when
its similarity ratio to every previously kept result (not every previously
seen result) is at most the threshold; proved for every similarity
function. -/
theorem fuzzy_dedupe_keeps_iff {α : Type} (sim : α → α → ℚ) (thr : ℚ) (xs : List α) :
    (fuzzy_dedupe sim thr xs).Sublist xs ∧
    (fuzzy_dedupe sim thr xs).Pairwise (fun a b => sim b a ≤ thr) ∧
    ∀ r, fuzzy_dedupe sim thr (xs ++ [r]) =
      fuzzy_dedupe sim thr xs ++
        (if (fuzzy_dedupe sim thr xs).all (fun s => sim r s ≤ thr) then [r] else []) := by
  refine ⟨fuzzyDedupeGo_sublist sim thr xs [], fuzzyDedupeGo_pairwise sim thr xs [],
    fun r => ?_⟩
  unfold fuzzy_dedupe
  rw [fuzzyDedupeGo_append sim thr xs [r] [], List.nil_append]
  congr 1
  simp only [fuzzyDedupeGo]
  by_cases h : ((fuzzyDedupeGo sim thr [] xs).any fun s => decide (thr < sim r s)) = true
  · rw [if_pos h]
    obtain ⟨s, hs, hlt⟩ := List.any_eq_true.mp h
    have hall : ((fuzzyDedupeGo sim thr [] xs).all fun s => decide (sim r s ≤ thr)) = false := by
      refine List.all_eq_false.mpr ⟨s, hs, ?_⟩
      simpa using not_le.mpr (by simpa using hlt)
    rw [if_neg (by simp [hall])]
  · rw [if_neg h]
    have hall : ((fuzzyDedupeGo sim thr [] xs).all fun s => decide (sim r s ≤ thr)) = true := by
      refine List.all_eq_true.mpr (fun s hs => ?_)
      have hnot : ¬ thr < sim r s := fun hlt =>
        h (List.any_eq_true.mpr ⟨s, hs, by simpa using hlt⟩)
      simpa using not_lt.mp hnot
    rw [if_pos hall]

/-- C7: the fuzzy deduplicator is idempotent: applying it to its own
output returns that output unchanged; proved for every similarity
function. -/
theorem fuzzy_dedupe_idempotent {α : Type} (sim : α → α → ℚ) (thr : ℚ) (xs : List α) :
    fuzzy_dedupe sim thr (fuzzy_dedupe sim thr xs) = fuzzy_dedupe sim thr xs :=
  fuzzyDedupeGo_of_pairwise sim thr (fuzzyDedupeGo sim thr [] xs) []
    (fuzzyDedupeGo_pairwise sim thr xs []) (fun _ _ s hs => absurd hs (List.not_mem_nil s))

/-- C4: for every line sequence with at least `2 * W - V` lines and every
`0 ≤ V < W`, any two adjacent strict-policy chunks share exactly `V`
lines: the last `V` lines of chunk `i` equal the first `V` lines of
chunk `i + 1` (and at least two chunks exist). -/
theorem strict_adjacent_overlap (lines : List (List Char)) (W V : Nat) (hVW : V < W)
    (hL : 2 * W - V ≤ lines.length) :
    2 ≤ (okOr (chunk_slices_strict lines W V) []).length ∧
    ∀ i, i + 1 < (okOr (chunk_slices_strict lines W V) []).length →
      ((okOr (chunk_slices_strict lines W V) []).getD i []).drop (W - V) =
        ((okOr (chunk_slices_strict lines W V) []).getD (i + 1) []).take V := by
  rw [chunk_slices_strict_eq lines W V hVW]
  simp only [okOr]
  have hS : 0 < W - V := by omega
  have hWL : ¬ (lines.length < W) := by omega
  constructor
  · rw [List.length_map, List.length_range, if_neg hWL]
    have h1 : 1 ≤ (lines.length - W) / (W - V) := (Nat.one_le_div_iff hS).mpr (by omega)
    omega
  · intro i hi
    rw [List.length_map, List.length_range] at hi
    rw [getD_map_range _ _ (by omega), getD_map_range _ _ hi]
    unfold pySlice
    rw [List.drop_take, List.drop_drop, List.take_take]
    have e1 : W - (W - V) = V := by omega
    have e2 : i * (W - V) + (W - V) = (i + 1) * (W - V) := by ring
    have e3 : min V W = V := by omega
    rw [e1, e2, e3]

/-- Witness for C4 at a concrete three-line document with `W = 2`,
`V = 1`: the first two chunks share one boundary line. -/
theorem strict_adjacent_overlap_witness :
    2 ≤ (okOr (chunk_slices_strict [['a'], ['b'], ['c']] 2 1) []).length ∧
    ((okOr (chunk_slices_strict [['a'], ['b'], ['c']] 2 1) []).getD 0 []).drop 1 =
      ((okOr (chunk_slices_strict [['a'], ['b'], ['c']] 2 1) []).getD 1 []).take 1 := by
  have h := strict_adjacent_overlap [['a'], ['b'], ['c']] 2 1 (by decide) (by decide)
  exact ⟨h.1, h.2 0 (by decide)⟩

/-- C5 amended: under the permissive policy every chunk starting at
`i * (W - V)` has exactly `min W (L - i * (W - V))` lines, so the chunk
lengths are nonincreasing and the chunks shorter than `W` form a
contiguous tail; more than one trailing chunk may be short, so it is not
true that only the final chunk can be shorter than `W`. -/
theorem permissive_chunk_lengths (lines : List (List Char)) (W V : Nat) (hVW : V < W) :
    (∀ i, i < (okOr (chunk_slices_permissive lines W V) []).length →
      ((okOr (chunk_slices_permissive lines W V) []).getD i []).length =
        min W (lines.length - i * (W - V))) ∧
    ∀ i j, i ≤ j → j < (okOr (chunk_slices_permissive lines W V) []).length →
      ((okOr (chunk_slices_permissive lines W V) []).getD j []).length ≤
        ((okOr (chunk_slices_permissive lines W V) []).getD i []).length := by
  rw [chunk_slices_permissive_eq lines W V hVW]
  simp only [okOr]
  constructor
  · intro i hi
    rw [List.length_map, List.length_range] at hi
    rw [getD_map_range _ _ hi]
    unfold pySlice
    rw [List.length_take, List.length_drop]
  · intro i j hij hj
    rw [List.length_map, List.length_range] at hj
    rw [getD_map_range _ _ hj, getD_map_range _ _ (by omega : i < _)]
    unfold pySlice
    rw [List.length_take, List.length_drop, List.length_take, List.length_drop]
    have hmul : i * (W - V) ≤ j * (W - V) := Nat.mul_le_mul_right _ hij
    set a := i * (W - V)
    set b := j * (W - V)
    omega

/-- Witness for the amended C5 at a concrete three-line document with
`W = 3`, `V = 2`: the second chunk has `min 3 (3 - 1) = 2` lines. -/
theorem permissive_chunk_lengths_witness :
    ((okOr (chunk_slices_permissive [['a'], ['b'], ['c']] 3 2) []).getD 1 []).length =
      min 3 (([['a'], ['b'], ['c']] : List (List Char)).length - 1 * (3 - 2)) :=
  (permissive_chunk_lengths [['a'], ['b'], ['c']] 3 2 (by decide)).1 1 (by decide)

/-- C5 counterexample: with a 3-line document, `W = 3`, `V = 2`, the
permissive chunker produces the windows `[0:3]`, `[1:4]`, `[2:5]` of
lengths 3, 2, 1, so the second chunk is shorter than `W` although it is
not the last chunk. -/
theorem permissive_short_chunk_not_last :
    ¬ (∀ i, i + 1 < (okOr (chunk_slices_permissive [['a'], ['b'], ['c']] 3 2) []).length →
      ((okOr (chunk_slices_permissive [['a'], ['b'], ['c']] 3 2) []).getD i []).length = 3) := by
  intro h
  exact absurd (h 1 (by decide)) (by decide)

/-- C6 amended: when `W = V` the chunker fails fast with the range
configuration error, but when `W < V` it silently returns an empty chunk
list instead of failing. -/
theorem chunker_nonpositive_stride (lines : List (List Char)) (W V : Nat) :
    (W = V → chunk_lines_permissive lines W V =
      Except.error "range() arg 3 must not be zero") ∧
    (W < V → chunk_lines_permissive lines W V = Except.ok []) := by
  constructor
  · intro h
    subst h
    unfold chunk_lines_permissive chunk_slices_permissive pyRange0
    rw [if_pos (by omega : (W : Int) - (W : Int) = 0)]
    rfl
  · intro h
    unfold chunk_lines_permissive chunk_slices_permissive pyRange0
    rw [if_neg (by omega : ¬ ((W : Int) - (V : Int) = 0)),
      if_pos (by omega : (W : Int) - (V : Int) < 0)]
    rfl

/-- Witness for the amended C6: a one-line document with `W = V = 2`
raises the range error, and with `W = 1 < V = 2` silently yields no
chunks. -/
theorem chunker_nonpositive_stride_witness :
    chunk_lines_permissive [['x']] 2 2 = Except.error "range() arg 3 must not be zero" ∧
    chunk_lines_permissive [['x']] 1 2 = Except.ok [] :=
  ⟨(chunker_nonpositive_stride [['x']] 2 2).1 rfl,
    (chunker_nonpositive_stride [['x']] 1 2).2 (by decide)⟩

/-- C6 counterexample: with `W = 1 < V = 2` on a three-line document the
chunker does not fail fast: it returns a successful empty chunk list. -/
theorem chunker_negative_stride_silent :
    chunk_lines_permissive [['a'], ['b'], ['c']] 1 2 = Except.ok [] ∧
    Except.isOk (chunk_lines_permissive [['a'], ['b'], ['c']] 1 2) = true :=
  ⟨rfl, rfl⟩

theorem takeWhile_append_of_all {β : Type} (p : β → Bool) {l1 : List β} (l2 : List β)
    (h : ∀ a ∈ l1, p a = true) : (l1 ++ l2).takeWhile p = l1 ++ l2.takeWhile p := by
  induction l1 with
  | nil => simp
  | cons x xs ih =>
    rw [List.cons_append, List.takeWhile_cons, if_pos (h x (List.mem_cons_self x xs)),
      ih (fun a ha => h a (List.mem_cons_of_mem x ha))]
    rfl

theorem dropWhile_append_of_all {β : Type} (p : β → Bool) {l1 : List β} (l2 : List β)
    (h : ∀ a ∈ l1, p a = true) : (l1 ++ l2).dropWhile p = l2.dropWhile p := by
  induction l1 with
  | nil => simp
  | cons x xs ih =>
    rw [List.cons_append, List.dropWhile_cons, if_pos (h x (List.mem_cons_self x xs))]
    exact ih (fun a ha => h a (List.mem_cons_of_mem x ha))

theorem takeWhile_eq_nil_of_all_false {β : Type} (p : β → Bool) {l : List β}
    (h : ∀ a ∈ l, p a = false) : l.takeWhile p = [] := by
  cases l with
  | nil => rfl
  | cons x xs =>
    rw [List.takeWhile_cons, if_neg (by simp [h x (List.mem_cons_self x xs)])]

/-- C8 counterexample: for the response text with the heading "T" and the
line "Use Case ID: UC-$x", with module code "160", the extractor returns
"UC-AP-160-$x-T", which holds a dollar character outside the allowed
class, because the use-case id is copied from the text without
sanitization; so the claim that the whole name is truncated and restricted
to letters, digits, hyphen and space fails. -/
theorem extract_title_and_id_charset_violated :
    ¬ ((∀ c ∈ extract_title_and_id "# T\nUse Case ID: UC-$x\n".data "160".data,
        (c.isAlpha || c.isDigit || c = '-' || c = ' ') = true) ∧
      (extract_title_and_id "# T\nUse Case ID: UC-$x\n".data "160".data).length ≤ 75) := by
  decide

/-- C8 amended: the extractor output is the concatenation
UC-AP-(program)-(id)-(title) in which the title component is truncated to
at most 75 characters and holds only letters, digits and hyphens; the id
component is copied from the response text without sanitization, so the
whole name is neither globally truncated nor restricted to the claimed
character class. -/
theorem extract_title_and_id_title_component (text program : List Char) :
    extract_title_and_id text program =
      "UC-AP-".data ++ program ++ "-".data ++ extractUcid text ++ "-".data ++
        (if (extractTitle text).isEmpty then "Untitled".data else extractTitle text) ∧
    (if (extractTitle text).isEmpty then "Untitled".data else extractTitle text).length ≤ 75 ∧
    ∀ c ∈ (if (extractTitle text).isEmpty then "Untitled".data else extractTitle text),
      (c.isAlpha || c.isDigit || c = '-') = true := by
  refine ⟨rfl, ?_, ?_⟩
  · by_cases h : (extractTitle text).isEmpty
    · rw [if_pos h]
      decide
    · rw [if_neg h]
      unfold extractTitle
      exact cleanFSTitle_length_le _
  · by_cases h : (extractTitle text).isEmpty
    · rw [if_pos h]
      decide
    · rw [if_neg h]
      unfold extractTitle
      exact cleanFSTitle_chars _

/-- C9 counterexample: the single-line text "see ## Tables Used here" is
not one of the recognized synonym header lines, yet the normalizer
rewrites it, because the replacements act on substrings anywhere in the
text rather than on whole header lines only. -/
theorem normalize_headers_alters_non_header_line :
    linesOf "see ## Tables Used here".data = ["see ## Tables Used here".data] ∧
    ¬ ("see ## Tables Used here".data ∈ ["## Input Validation".data,
      "## Validation Rules".data, "## Entities Used".data, "## Tables Used".data]) ∧
    normalize_headers "see ## Tables Used here".data ≠ "see ## Tables Used here".data := by
  refine ⟨by decide, by decide, by decide⟩

/-- C9 amended: the normalizer acts line by line — the lines of the output
are the normalized lines of the input, so the line count and the position
of every line are preserved — and every line that holds none of the four
synonym header strings (not merely every line that is no synonym header
line) is carried to the output unchanged. -/
theorem normalize_headers_frame (x : List Char) :
    linesOf (normalize_headers x) = (linesOf x).map normalize_headers ∧
    ∀ l : List Char,
      hasSubstr "## Input Validation".data l = false →
      hasSubstr "## Validation Rules".data l = false →
      hasSubstr "## Entities Used".data l = false →
      hasSubstr "## Tables Used".data l = false →
      normalize_headers l = l :=
  ⟨linesOf_normalize_headers x, fun _ h1 h2 h3 h4 => normalize_headers_noop h1 h2 h3 h4⟩

/-- Witness for the amended C9 at a concrete two-line text and a concrete
clean line. -/
theorem normalize_headers_frame_witness :
    linesOf (normalize_headers "a\n## Tables Used".data) =
      (linesOf "a\n## Tables Used".data).map normalize_headers ∧
    normalize_headers "plain line".data = "plain line".data :=
  ⟨(normalize_headers_frame "a\n## Tables Used".data).1,
    (normalize_headers_frame "a\n## Tables Used".data).2 "plain line".data (by decide)
      (by decide) (by decide) (by decide)⟩

/-- C10: for every line sequence and `0 ≤ V < W`, the strict chunker
output is exactly the prefix of the permissive chunker output consisting
of its full `W`-line windows: every strict chunk has exactly `W` lines,
the strict list is the longest full-window prefix of the permissive list,
and every permissive chunk past that prefix is shorter than `W`. -/
theorem strict_prefix_of_permissive (lines : List (List Char)) (W V : Nat) (hVW : V < W) :
    okOr (chunk_slices_strict lines W V) [] =
      (okOr (chunk_slices_permissive lines W V) []).takeWhile (fun c => c.length = W) ∧
    (∀ c ∈ okOr (chunk_slices_strict lines W V) [], c.length = W) ∧
    ∀ c ∈ (okOr (chunk_slices_permissive lines W V) []).dropWhile (fun c => c.length = W),
      c.length < W := by
  rw [chunk_slices_strict_eq lines W V hVW, chunk_slices_permissive_eq lines W V hVW]
  simp only [okOr]
  have hS : 0 < W - V := by omega
  have hlen : ∀ i : Nat, (pySlice lines (i * (W - V)) W).length =
      min W (lines.length - i * (W - V)) := by
    intro i
    unfold pySlice
    rw [List.length_take, List.length_drop]
  have hiff : ∀ i : Nat, (pySlice lines (i * (W - V)) W).length = W ↔
      i < (if lines.length < W then 0 else (lines.length - W) / (W - V) + 1) := by
    intro i
    rw [← strict_index_iff hVW i, hlen i]
    set m := i * (W - V) with hm
    omega
  have hsplit : List.range ((lines.length + (W - V) - 1) / (W - V)) =
      List.range (if lines.length < W then 0 else (lines.length - W) / (W - V) + 1) ++
        (List.range ((lines.length + (W - V) - 1) / (W - V) -
          (if lines.length < W then 0 else (lines.length - W) / (W - V) + 1))).map
          ((if lines.length < W then 0 else (lines.length - W) / (W - V) + 1) + ·) := by
    rw [← List.range_add]
    congr 1
    have := @strict_count_le lines.length W V hVW
    omega
  have hall : ∀ c ∈ (List.range
        (if lines.length < W then 0 else (lines.length - W) / (W - V) + 1)).map
        (fun i => pySlice lines (i * (W - V)) W),
      (fun c => decide (List.length c = W)) c = true := by
    intro c hc
    obtain ⟨i, hi, rfl⟩ := List.mem_map.mp hc
    exact decide_eq_true ((hiff i).mpr (List.mem_range.mp hi))
  have hrest : ∀ c ∈ (List.range ((lines.length + (W - V) - 1) / (W - V) -
        (if lines.length < W then 0 else (lines.length - W) / (W - V) + 1))).map
        ((if lines.length < W then 0 else (lines.length - W) / (W - V) + 1) + ·) |>.map
        (fun i => pySlice lines (i * (W - V)) W),
      c.length < W := by
    intro c hc
    obtain ⟨i, hi, rfl⟩ := List.mem_map.mp hc
    obtain ⟨j, _, rfl⟩ := List.mem_map.mp hi
    have hge : ¬ ((if lines.length < W then 0 else (lines.length - W) / (W - V) + 1) + j <
        (if lines.length < W then 0 else (lines.length - W) / (W - V) + 1)) := by omega
    have hne := (not_iff_not.mpr (hiff _)).mpr hge
    rw [hlen] at hne ⊢
    set m := ((if lines.length < W then 0 else (lines.length - W) / (W - V) + 1) + j) *
      (W - V) with hm
    omega
  refine ⟨?_, ?_, ?_⟩
  · rw [hsplit, List.map_append, takeWhile_append_of_all _ _ hall]
    rw [takeWhile_eq_nil_of_all_false _ (fun c hc => ?_), List.append_nil]
    have hlt := hrest c hc
    exact decide_eq_false (by omega)
  · intro c hc
    obtain ⟨i, hi, rfl⟩ := List.mem_map.mp hc
    exact (hiff i).mpr (List.mem_range.mp hi)
  · rw [hsplit, List.map_append, dropWhile_append_of_all _ _ hall]
    intro c hc
    exact hrest c ((List.dropWhile_suffix _).sublist.subset hc)

/-- Witness for C10 at a concrete three-line document with `W = 2`,
`V = 1`. -/
theorem strict_prefix_of_permissive_witness :
    okOr (chunk_slices_strict [['a'], ['b'], ['c']] 2 1) [] =
      (okOr (chunk_slices_permissive [['a'], ['b'], ['c']] 2 1) []).takeWhile
        (fun c => c.length = 2) :=
  (strict_prefix_of_permissive [['a'], ['b'], ['c']] 2 1 (by decide)).1
